import Mathlib

set_option maxRecDepth 8000

/-!
Shallow embedding of the dessser runtime's low-level data layer:
the 128-bit integer / decimal-text codec (`src/dessser/runtime.h`),
the `Bytes` buffer view (`src/dessser/Bytes.h`) and the two ordered
collection variants `SimpleSet` (`src/dessser/SimpleSet.h`) and
`SlidingWindow` (`src/dessser/SlidingWindow.h`).

Modelling conventions:
* C++ strings and character ranges are `List Char`.
* `uint128_t` is `Nat` with explicit `% 2^128` where the source relies on
  unsigned wrap-around; `int128_t` is `Int` (signed overflow is undefined
  behaviour in the source, and every property proved below stays inside
  the defined range, so no wrap is applied to signed intermediates).
* C++ truncating division/remainder on signed integers is `Int.tdiv` /
  `Int.tmod`.
* Fallible code (failed `assert`, `std::invalid_argument` from `stoll` /
  `stoull`) is embedded as `Except CodecError`: a failed assertion or a
  parse exception becomes `.error .ParseError`, an out-of-range
  `std::out_of_range` becomes `.error .Overflow`.
* The recursive source functions are embedded with an explicit fuel
  argument so that every definition is structurally recursive and
  kernel-computable; the top-level wrappers supply fuel that is proved
  (and in the theorems below, used) to be sufficient.
-/

namespace Dessser

/-- Error taxonomy of the spec (§7): parse errors, overflow, and
out-of-range buffer views. -/
inductive CodecError where
  | ParseError
  | Overflow
  | OutOfRange
deriving DecidableEq, Repr

/-! ### Character helpers (runtime.h:93-94) -/

/-- `inline bool is_sign(char const x) { return x == '-' || x == '+'; }` -/
def is_sign (c : Char) : Bool := c = '-' || c = '+'

/-- `inline bool is_digit(char const x) { return x >= '0' && x <= '9'; }` -/
def is_digit (c : Char) : Bool := '0' ≤ c && c ≤ '9'

/-- The ASCII digit character for `d ∈ [0,9]`. -/
def digitChar (d : Nat) : Char := Char.ofNat (48 + d)

/-- Numeric value of an ASCII digit character. -/
def charVal (c : Char) : Nat := c.toNat - 48

/-- A string consisting of decimal digits only. -/
def allDigits (s : List Char) : Bool := s.all is_digit

/-- The numeric value denoted by a string of decimal digits
(most significant digit first). -/
def parseDigits (s : List Char) : Nat :=
  s.foldl (fun a c => 10 * a + charVal c) 0

/-! ### Decimal rendering of a natural number (`std::to_string`) -/

/-- Digits of `n` in base 10, most significant first, prepended to `acc`;
structural recursion on `fuel` (any `fuel > n` is sufficient). -/
def toDecimalCore : Nat → Nat → List Char → List Char
  | 0, _, acc => acc
  | fuel+1, n, acc =>
    if n < 10 then digitChar n :: acc
    else toDecimalCore fuel (n / 10) (digitChar (n % 10) :: acc)

/-- Decimal rendering of `n`, as `std::to_string` produces for an
unsigned value. -/
def toDecimal (n : Nat) : List Char := toDecimalCore (n + 1) n []

/-! ### Basic lemmas about digits and `parseDigits` -/

theorem charVal_digitChar : ∀ d, d < 10 → charVal (digitChar d) = d := by
  decide

theorem is_digit_digitChar : ∀ d, d < 10 → is_digit (digitChar d) = true := by
  decide

theorem is_digit_toNat {c : Char} (h : is_digit c = true) :
    48 ≤ c.toNat ∧ c.toNat ≤ 57 := by
  simp only [is_digit, Bool.and_eq_true, decide_eq_true_eq] at h
  obtain ⟨h1, h2⟩ := h
  constructor
  · exact h1
  · exact h2

theorem charVal_lt_ten {c : Char} (h : is_digit c = true) : charVal c < 10 := by
  have := is_digit_toNat h
  unfold charVal
  omega

theorem is_sign_of_digit {c : Char} (h : is_digit c = true) :
    is_sign c = false := by
  have h48 := (is_digit_toNat h).1
  simp only [is_sign, Bool.or_eq_false_iff, decide_eq_false_iff_not]
  constructor
  · intro hc; subst hc
    have : ('-' : Char).toNat = 45 := by decide
    omega
  · intro hc; subst hc
    have : ('+' : Char).toNat = 43 := by decide
    omega

theorem parseDigits_foldl (s : List Char) :
    ∀ a : Nat, s.foldl (fun a c => 10 * a + charVal c) a
      = a * 10 ^ s.length + parseDigits s := by
  induction s with
  | nil => intro a; simp [parseDigits]
  | cons c t ih =>
    intro a
    simp only [List.foldl_cons, List.length_cons, parseDigits]
    rw [ih (10 * a + charVal c), ih (10 * 0 + charVal c)]
    ring

theorem parseDigits_cons (c : Char) (t : List Char) :
    parseDigits (c :: t) = charVal c * 10 ^ t.length + parseDigits t := by
  simp only [parseDigits, List.foldl_cons]
  rw [parseDigits_foldl t (10 * 0 + charVal c)]
  simp only [parseDigits]
  ring

theorem parseDigits_append (a b : List Char) :
    parseDigits (a ++ b) = parseDigits a * 10 ^ b.length + parseDigits b := by
  simp only [parseDigits, List.foldl_append]
  have := parseDigits_foldl b (a.foldl (fun a c => 10 * a + charVal c) 0)
  simpa [parseDigits] using this

theorem parseDigits_replicate_zero (k : Nat) :
    parseDigits (List.replicate k '0') = 0 := by
  induction k with
  | zero => simp [parseDigits]
  | succ n ih =>
    rw [List.replicate_succ, parseDigits_cons, ih]
    have h0 : charVal '0' = 0 := by decide
    rw [h0]
    ring

theorem parseDigits_lt {s : List Char} (h : allDigits s = true) :
    parseDigits s < 10 ^ s.length := by
  induction s with
  | nil => simp [parseDigits]
  | cons c t ih =>
    simp only [allDigits, List.all_cons, Bool.and_eq_true] at h
    have hc : charVal c < 10 := charVal_lt_ten h.1
    have ht := ih h.2
    rw [parseDigits_cons]
    simp only [List.length_cons, pow_succ]
    nlinarith

theorem parseDigits_head_le (c : Char) (t : List Char) :
    charVal c * 10 ^ t.length ≤ parseDigits (c :: t) := by
  rw [parseDigits_cons]; omega

theorem parseDigits_pos {c : Char} {t : List Char} (h : 1 ≤ charVal c) :
    1 ≤ parseDigits (c :: t) := by
  have := parseDigits_head_le c t
  have h10 : 1 ≤ 10 ^ t.length := Nat.one_le_pow _ _ (by norm_num)
  nlinarith

/-! ### Correctness of `toDecimal` -/

theorem toDecimalCore_spec :
    ∀ fuel n acc, n < fuel →
      ∃ ds, toDecimalCore fuel n acc = ds ++ acc ∧ ds ≠ [] ∧
        allDigits ds = true ∧ parseDigits ds = n ∧
        (1 ≤ n → 1 ≤ charVal ds.headI) ∧
        (∀ k, 1 ≤ k → n < 10 ^ k → ds.length ≤ k) := by
  intro fuel
  induction fuel with
  | zero => intro n acc h; omega
  | succ fuel ih =>
    intro n acc h
    by_cases hn : n < 10
    · refine ⟨[digitChar n], ?_, ?_, ?_, ?_, ?_, ?_⟩
      · simp [toDecimalCore, hn]
      · simp
      · simp [allDigits, is_digit_digitChar n hn]
      · simp [parseDigits_cons, parseDigits, charVal_digitChar n hn]
      · intro h1
        simp only [List.headI]
        rw [charVal_digitChar n hn]; exact h1
      · intro k hk _; simpa using hk
    · push_neg at hn
      have hrec : n / 10 < fuel := by
        have : n / 10 < n := Nat.div_lt_self (by omega) (by norm_num)
        omega
      obtain ⟨ds, hds, hne, hdig, hval, hhead, hlen⟩ :=
        ih (n / 10) (digitChar (n % 10) :: acc) hrec
      refine ⟨ds ++ [digitChar (n % 10)], ?_, ?_, ?_, ?_, ?_, ?_⟩
      · rw [toDecimalCore]
        rw [if_neg (by omega)]
        rw [hds, List.append_assoc]
        simp
      · simp
      · have hd : is_digit (digitChar (n % 10)) = true :=
          is_digit_digitChar _ (Nat.mod_lt _ (by norm_num))
        simp only [allDigits, List.all_append, Bool.and_eq_true]
        exact ⟨hdig, by simp [hd]⟩
      · rw [parseDigits_append, hval]
        have : parseDigits [digitChar (n % 10)] = n % 10 := by
          simp [parseDigits_cons, parseDigits,
            charVal_digitChar _ (Nat.mod_lt n (by norm_num))]
        rw [this]
        simp only [List.length_cons, List.length_nil, pow_one, pow_zero]
        omega
      · intro _
        have hpos : 1 ≤ n / 10 := by
          have := Nat.div_le_div_right (c := 10) hn
          simpa using this
        have := hhead hpos
        cases ds with
        | nil => exact absurd rfl hne
        | cons d ds' => simpa using this
      · intro k hk hnk
        have hk2 : 2 ≤ k := by
          by_contra hcon
          push_neg at hcon
          interval_cases k
          · omega
        have hdiv : n / 10 < 10 ^ (k - 1) := by
          rw [Nat.div_lt_iff_lt_mul (by norm_num)]
          calc n < 10 ^ k := hnk
          _ = 10 ^ (k - 1) * 10 := by
            rw [← pow_succ]
            congr 1
            omega
        have := hlen (k - 1) (by omega) hdiv
        simp only [List.length_append, List.length_cons, List.length_nil]
        omega

theorem toDecimal_spec (n : Nat) :
    toDecimal n ≠ [] ∧ allDigits (toDecimal n) = true ∧
      parseDigits (toDecimal n) = n ∧
      (1 ≤ n → 1 ≤ charVal (toDecimal n).headI) ∧
      (∀ k, 1 ≤ k → n < 10 ^ k → (toDecimal n).length ≤ k) := by
  obtain ⟨ds, hds, hne, hdig, hval, hhead, hlen⟩ :=
    toDecimalCore_spec (n + 1) n [] (by omega)
  rw [List.append_nil] at hds
  unfold toDecimal
  rw [hds]
  exact ⟨hne, hdig, hval, hhead, hlen⟩

/-! ### Sub-list helpers -/

theorem allDigits_iff {s : List Char} :
    allDigits s = true ↔ ∀ c ∈ s, is_digit c = true := by
  simp [allDigits, List.all_eq_true]

theorem allDigits_take {s : List Char} (h : allDigits s = true) (n : Nat) :
    allDigits (s.take n) = true := by
  rw [allDigits_iff] at h ⊢
  exact fun c hc => h c (List.take_subset n s hc)

theorem allDigits_drop {s : List Char} (h : allDigits s = true) (n : Nat) :
    allDigits (s.drop n) = true := by
  rw [allDigits_iff] at h ⊢
  exact fun c hc => h c (List.drop_subset n s hc)

theorem takeWhile_of_allDigits {s : List Char} (h : allDigits s = true) :
    s.takeWhile is_digit = s := by
  induction s with
  | nil => rfl
  | cons c t ih =>
    simp only [allDigits, List.all_cons, Bool.and_eq_true] at h
    simp [List.takeWhile_cons, h.1, ih h.2]

theorem headI_append {a b : List Char} (h : a ≠ []) :
    (a ++ b).headI = a.headI := by
  cases a with
  | nil => exact absurd rfl h
  | cons c t => rfl

/-! ### Numeric constants of runtime.h -/

def UINT64_MAX : Nat := 18446744073709551615
def P10_UINT64 : Nat := 10000000000000000000
def E10_UINT64 : Nat := 19
def INT64_MAX : Int := 9223372036854775807
def INT64_MIN : Int := -9223372036854775808
def P10_INT64 : Int := 1000000000000000000
def E10_INT64 : Nat := 18

/-! ### Models of `std::stoll` / `std::stoull` (base 10) -/

/-- Model of `std::stoll`: skip one optional sign character, read the
maximal run of decimal digits (at least one required, else
`std::invalid_argument`, embedded as ParseError), negate if the sign was
`'-'`, and check the signed 64-bit range (`std::out_of_range`, embedded
as Overflow). Leading whitespace never occurs in the strings this
development feeds to it and is not modelled. -/
def stoll (s : List Char) : Except CodecError Int :=
  let rest := if is_sign s.headI then s.tail else s
  let ds := rest.takeWhile is_digit
  if ds = [] then .error .ParseError
  else
    let v : Int :=
      if s.headI = '-' then -(parseDigits ds : Int) else (parseDigits ds : Int)
    if v < INT64_MIN ∨ INT64_MAX < v then .error .Overflow
    else .ok v

/-- Model of `std::stoull`: like `stoll` but the range is unsigned
64-bit and a leading `'-'` wraps the value modulo `2 ^ 64`. -/
def stoull (s : List Char) : Except CodecError Nat :=
  let rest := if is_sign s.headI then s.tail else s
  let ds := rest.takeWhile is_digit
  if ds = [] then .error .ParseError
  else if 2 ^ 64 ≤ parseDigits ds then .error .Overflow
  else .ok (if s.headI = '-' then (2 ^ 64 - parseDigits ds) % 2 ^ 64
            else parseDigits ds)

theorem not_sign_head {c : Char} (h : is_digit c = true) :
    is_sign c = false ∧ ¬ (c = '-') := by
  have hs := is_sign_of_digit h
  refine ⟨hs, ?_⟩
  intro hc
  rw [hc] at hs
  simp [is_sign] at hs

theorem stoll_digits {c : Char} {t : List Char}
    (hdig : allDigits (c :: t) = true)
    (hle : (parseDigits (c :: t) : Int) ≤ INT64_MAX) :
    stoll (c :: t) = .ok (parseDigits (c :: t)) := by
  have hc : is_digit c = true := by
    rw [allDigits_iff] at hdig; exact hdig c (by simp)
  obtain ⟨hsign, hneg⟩ := not_sign_head hc
  have h0 : (0 : Int) ≤ (parseDigits (c :: t) : Int) := Int.ofNat_nonneg _
  have hv : ¬ ((parseDigits (c :: t) : Int) < INT64_MIN ∨
      INT64_MAX < (parseDigits (c :: t) : Int)) := by
    push_neg
    refine ⟨?_, hle⟩
    unfold INT64_MIN
    omega
  simp only [stoll, List.headI, hsign, Bool.false_eq_true, if_false,
    takeWhile_of_allDigits hdig, if_neg hneg]
  rw [if_neg (show ¬ (c :: t = []) by simp), if_neg hv]

theorem stoll_neg_digits {c : Char} {t : List Char}
    (hdig : allDigits (c :: t) = true)
    (hle : (parseDigits (c :: t) : Int) ≤ INT64_MAX) :
    stoll ('-' :: c :: t) = .ok (-(parseDigits (c :: t) : Int)) := by
  have h0 : (0 : Int) ≤ (parseDigits (c :: t) : Int) := Int.ofNat_nonneg _
  have hv : ¬ ((-(parseDigits (c :: t) : Int)) < INT64_MIN ∨
      INT64_MAX < (-(parseDigits (c :: t) : Int))) := by
    push_neg
    unfold INT64_MIN INT64_MAX at *
    omega
  have hsg : is_sign '-' = true := by decide
  simp only [stoll, List.headI, List.tail_cons, hsg, eq_self_iff_true, if_true,
    takeWhile_of_allDigits hdig]
  rw [if_neg (show ¬ (c :: t = []) by simp), if_neg hv]

theorem stoull_digits {c : Char} {t : List Char}
    (hdig : allDigits (c :: t) = true)
    (hlt : parseDigits (c :: t) < 2 ^ 64) :
    stoull (c :: t) = .ok (parseDigits (c :: t)) := by
  have hc : is_digit c = true := by
    rw [allDigits_iff] at hdig; exact hdig c (by simp)
  obtain ⟨hsign, hneg⟩ := not_sign_head hc
  simp only [stoull, List.headI, hsign, Bool.false_eq_true, if_false,
    takeWhile_of_allDigits hdig, if_neg hneg]
  rw [if_neg (show ¬ (c :: t = []) by simp),
    if_neg (show ¬ (2 ^ 64 ≤ parseDigits (c :: t)) by omega)]

/-! ### `string_of_u128` (runtime.h:52-63) -/

/-- `string_of_u128`, fuel-indexed (any `fuel > u` suffices):
values that fit `uint64_t` are rendered directly; otherwise the value is
split as `hi = u / 10^19`, `lo = u % 10^19` and the low chunk is
left-padded with zeros to exactly `E10_UINT64 = 19` digits. -/
def string_of_u128_fuel : Nat → Nat → List Char
  | 0, _ => []
  | fuel+1, u =>
    if u ≤ UINT64_MAX then toDecimal u
    else
      string_of_u128_fuel fuel (u / P10_UINT64)
        ++ (List.replicate (E10_UINT64 - (toDecimal (u % P10_UINT64)).length) '0'
            ++ toDecimal (u % P10_UINT64))

def string_of_u128 (u : Nat) : List Char := string_of_u128_fuel (u + 1) u

/-- The zero-padded low chunk: exactly `w` characters, all digits,
denoting `v`. -/
theorem chunk_spec {v w : Nat} (hw : 1 ≤ w) (hv : v < 10 ^ w) :
    (List.replicate (w - (toDecimal v).length) '0' ++ toDecimal v).length = w ∧
    allDigits (List.replicate (w - (toDecimal v).length) '0' ++ toDecimal v)
      = true ∧
    parseDigits (List.replicate (w - (toDecimal v).length) '0' ++ toDecimal v)
      = v := by
  obtain ⟨hne, hdig, hval, _, hlen⟩ := toDecimal_spec v
  have hL : (toDecimal v).length ≤ w := hlen w hw hv
  refine ⟨?_, ?_, ?_⟩
  · simp only [List.length_append, List.length_replicate]
    omega
  · simp only [allDigits, List.all_append, Bool.and_eq_true]
    refine ⟨?_, hdig⟩
    rw [List.all_eq_true]
    intro c hc
    rw [List.mem_replicate] at hc
    rw [hc.2]
    decide
  · rw [parseDigits_append, parseDigits_replicate_zero, hval]
    ring

theorem string_of_u128_fuel_spec :
    ∀ fuel u, u < fuel →
      string_of_u128_fuel fuel u ≠ [] ∧
      allDigits (string_of_u128_fuel fuel u) = true ∧
      parseDigits (string_of_u128_fuel fuel u) = u := by
  intro fuel
  induction fuel with
  | zero => intro u h; omega
  | succ fuel ih =>
    intro u hu
    by_cases hle : u ≤ UINT64_MAX
    · simp only [string_of_u128_fuel, if_pos hle]
      obtain ⟨a, b, c, _, _⟩ := toDecimal_spec u
      exact ⟨a, b, c⟩
    · have hP : P10_UINT64 = 10 ^ E10_UINT64 := by norm_num [P10_UINT64, E10_UINT64]
      have hPpos : 0 < P10_UINT64 := by norm_num [P10_UINT64]
      have hrec : u / P10_UINT64 < fuel := by
        have h1 : u / P10_UINT64 < u :=
          Nat.div_lt_self (by omega) (by norm_num [P10_UINT64])
        omega
      obtain ⟨hne, hdig, hval⟩ := ih (u / P10_UINT64) hrec
      have hmod : u % P10_UINT64 < 10 ^ E10_UINT64 := by
        rw [← hP]; exact Nat.mod_lt u hPpos
      obtain ⟨hclen, hcdig, hcval⟩ :=
        chunk_spec (v := u % P10_UINT64) (w := E10_UINT64)
          (by norm_num [E10_UINT64]) hmod
      simp only [string_of_u128_fuel, if_neg hle]
      refine ⟨by simp [hne], ?_, ?_⟩
      · simp only [allDigits, List.all_append, Bool.and_eq_true] at hdig hcdig ⊢
        exact ⟨hdig, hcdig⟩
      · rw [parseDigits_append, hclen, hcval, hval, ← hP]
        have h := Nat.div_add_mod u P10_UINT64
        rw [Nat.mul_comm] at h
        exact h

theorem string_of_u128_spec (u : Nat) :
    string_of_u128 u ≠ [] ∧ allDigits (string_of_u128 u) = true ∧
      parseDigits (string_of_u128 u) = u :=
  string_of_u128_fuel_spec (u + 1) u (by omega)

/-! ### `u128_of_string` (runtime.h:65-74) -/

/-- `u128_of_string`, fuel-indexed (any `fuel ≥ s.length` suffices).
The failed `assert(len > 0)` is `.error .ParseError`; exception
propagation out of the recursive calls and `std::stoull` is the `Except`
monad's bind; `uint128_t` arithmetic wraps modulo `2 ^ 128`. -/
def u128_of_string_fuel : Nat → List Char → Except CodecError Nat
  | 0, _ => .error .ParseError
  | fuel+1, s =>
    if s.length = 0 then .error .ParseError
    else if s.length ≤ E10_UINT64 then stoull s
    else
      (u128_of_string_fuel fuel (s.take (s.length - E10_UINT64))).bind fun hi =>
        (u128_of_string_fuel fuel
            ((s.drop (s.length - E10_UINT64)).take E10_UINT64)).bind fun lo =>
          .ok ((hi * P10_UINT64 + lo) % 2 ^ 128)

def u128_of_string (s : List Char) : Except CodecError Nat :=
  u128_of_string_fuel s.length s

theorem except_ok_bind {α β : Type} (a : α) (f : α → Except CodecError β) :
    (Except.ok a).bind f = f a := rfl

theorem u128_of_string_fuel_digits :
    ∀ fuel s, s.length ≤ fuel → s ≠ [] → allDigits s = true →
      parseDigits s < 2 ^ 128 →
      u128_of_string_fuel fuel s = .ok (parseDigits s) := by
  intro fuel
  induction fuel with
  | zero =>
    intro s hlen hne _ _
    cases s with
    | nil => exact absurd rfl hne
    | cons c t => simp at hlen
  | succ fuel ih =>
    intro s hlen hne hdig hbound
    have hlen0 : ¬ (s.length = 0) := by
      simp only [List.length_eq_zero]
      exact hne
    by_cases hle : s.length ≤ E10_UINT64
    · simp only [u128_of_string_fuel, if_neg hlen0, if_pos hle]
      cases s with
      | nil => exact absurd rfl hne
      | cons c t =>
        apply stoull_digits hdig
        calc parseDigits (c :: t) < 10 ^ (c :: t).length := parseDigits_lt hdig
        _ ≤ 10 ^ E10_UINT64 := Nat.pow_le_pow_right (by norm_num) hle
        _ < 2 ^ 64 := by norm_num [E10_UINT64]
    · push_neg at hle
      have hP : P10_UINT64 = 10 ^ E10_UINT64 := by
        norm_num [P10_UINT64, E10_UINT64]
      have h19 : E10_UINT64 = 19 := rfl
      set hl := s.length - E10_UINT64 with hhl
      have hlt : hl < s.length := by omega
      have htlen : (s.take hl).length = hl := by
        rw [List.length_take]; omega
      have hdlen : (s.drop hl).length = E10_UINT64 := by
        rw [List.length_drop]; omega
      have hdtake : (s.drop hl).take E10_UINT64 = s.drop hl := by
        apply List.take_of_length_le
        omega
      have hsplit : s.take hl ++ s.drop hl = s := List.take_append_drop hl s
      have htne : s.take hl ≠ [] := by
        intro hcon
        have := congrArg List.length hcon
        rw [htlen] at this
        simp at this
        omega
      have hdne : s.drop hl ≠ [] := by
        intro hcon
        have := congrArg List.length hcon
        rw [hdlen] at this
        simp [E10_UINT64] at this
      have hparse : parseDigits s
          = parseDigits (s.take hl) * 10 ^ E10_UINT64
            + parseDigits (s.drop hl) := by
        conv_lhs => rw [← hsplit]
        rw [parseDigits_append, hdlen]
      have hdropbound : parseDigits (s.drop hl) < 10 ^ E10_UINT64 := by
        have := parseDigits_lt (allDigits_drop hdig hl)
        rwa [hdlen] at this
      have htakebound : parseDigits (s.take hl) < 2 ^ 128 := by
        have h1 : 1 ≤ 10 ^ E10_UINT64 := Nat.one_le_pow _ _ (by norm_num)
        nlinarith [hparse, hbound, Nat.zero_le (parseDigits (s.drop hl))]
      have hih1 := ih (s.take hl) (by omega) htne (allDigits_take hdig hl)
        htakebound
      have hih2 := ih (s.drop hl) (by rw [hdlen]; omega) hdne
        (allDigits_drop hdig hl)
        (lt_trans hdropbound (by norm_num [E10_UINT64]))
      have hle2 : ¬ s.length ≤ E10_UINT64 := by omega
      simp only [u128_of_string_fuel, if_neg hlen0, if_neg hle2]
      rw [← hhl, hih1, except_ok_bind, hdtake, hih2, except_ok_bind]
      rw [hP, ← hparse, Nat.mod_eq_of_lt hbound]

/-- C1: unsigned round-trip through the decimal codec, plus the three
concrete renderings named by the spec. -/
theorem c1_u128_roundtrip :
    (∀ u : Nat, u < 2 ^ 128 → u128_of_string (string_of_u128 u) = .ok u) ∧
      string_of_u128 0 = "0".data ∧
      string_of_u128 (2 ^ 64 - 1) = "18446744073709551615".data ∧
      string_of_u128 (2 ^ 64) = "18446744073709551616".data := by
  refine ⟨?_, by decide, by decide, by decide⟩
  intro u hu
  obtain ⟨hne, hdig, hval⟩ := string_of_u128_spec u
  unfold u128_of_string
  rw [u128_of_string_fuel_digits _ _ le_rfl hne hdig (by rw [hval]; exact hu),
    hval]

/-- C1 witness: the round-trip theorem applied at `u = 2 ^ 64`. -/
theorem c1_u128_roundtrip_witness :
    u128_of_string (string_of_u128 (2 ^ 64)) = .ok (2 ^ 64) :=
  c1_u128_roundtrip.1 (2 ^ 64) (by norm_num)

/-! ### Int helpers: C++ truncating division and remainder are
`Int.tdiv` / `Int.tmod` (quotient rounded toward zero, remainder taking
the sign of the dividend) -/

theorem tdiv_nonpos_nat (i : Int) (n : Nat) (h : i ≤ 0) :
    i.tdiv (n : Int) ≤ 0 := by
  cases i with
  | ofNat m =>
    have hm : m = 0 := by
      rw [Int.ofNat_eq_natCast] at h
      omega
    subst hm
    show (Int.ofNat 0).tdiv (Int.ofNat n) ≤ 0
    simp only [Int.tdiv]
    simp [Int.ofNat_eq_natCast, Nat.zero_div]
  | negSucc m =>
    show (Int.negSucc m).tdiv (Int.ofNat n) ≤ 0
    rw [show (Int.negSucc m).tdiv (Int.ofNat n) = -Int.ofNat (m.succ / n) by
      simp only [Int.tdiv]]
    rw [neg_nonpos]
    rw [Int.ofNat_eq_natCast]
    positivity

theorem natAbs_tmod_nat (i : Int) (n : Nat) :
    (i.tmod (n : Int)).natAbs = i.natAbs % n := by
  cases i with
  | ofNat m =>
    show ((Int.ofNat m).tmod (Int.ofNat n)).natAbs = _
    simp only [Int.tmod]
    rfl
  | negSucc m =>
    show ((Int.negSucc m).tmod (Int.ofNat n)).natAbs = _
    simp only [Int.tmod, Int.natAbs_neg]
    rfl

theorem natAbs_tdiv_nat (i : Int) (n : Nat) :
    (i.tdiv (n : Int)).natAbs = i.natAbs / n := by
  cases i with
  | ofNat m =>
    show ((Int.ofNat m).tdiv (Int.ofNat n)).natAbs = _
    simp only [Int.tdiv]
    rfl
  | negSucc m =>
    show ((Int.negSucc m).tdiv (Int.ofNat n)).natAbs = _
    simp only [Int.tdiv, Int.natAbs_neg]
    rfl

theorem natAbs_tdiv_tmod_decomp (i : Int) (n : Nat) :
    (i.tdiv (n : Int)).natAbs * n + (i.tmod (n : Int)).natAbs = i.natAbs := by
  rw [natAbs_tdiv_nat, natAbs_tmod_nat]
  exact Nat.div_add_mod' i.natAbs n

/-! ### `string_of_i128` (runtime.h:80-91) -/

/-- `std::to_string` on a signed 64-bit value: a `'-'` followed by the
digits of the magnitude when negative, plain digits otherwise. -/
def int64_to_string (i : Int) : List Char :=
  if i < 0 then '-' :: toDecimal i.natAbs else toDecimal i.toNat

/-- `string_of_i128`, fuel-indexed (any `fuel > i.natAbs` suffices):
values in the `int64_t` range are rendered directly; otherwise
`hi = i / 10^18`, `lo = i % 10^18` (truncating), and the low chunk is
`std::abs(lo)` left-padded with zeros to exactly `E10_INT64 = 18`
digits. The source computes in `int128_t`; every intermediate reached
from an in-range input stays in range (signed overflow would be UB), so
no wrap-around is modelled. -/
def string_of_i128_fuel : Nat → Int → List Char
  | 0, _ => []
  | fuel+1, i =>
    if INT64_MIN ≤ i ∧ i ≤ INT64_MAX then int64_to_string i
    else
      string_of_i128_fuel fuel (i.tdiv P10_INT64)
        ++ (List.replicate
              (E10_INT64 - (toDecimal (i.tmod P10_INT64).natAbs).length) '0'
            ++ toDecimal (i.tmod P10_INT64).natAbs)

def string_of_i128 (i : Int) : List Char :=
  string_of_i128_fuel (i.natAbs + 1) i

theorem P10_INT64_eq : P10_INT64 = ((1000000000000000000 : Nat) : Int) := rfl

theorem string_of_i128_fuel_spec :
    ∀ fuel (i : Int), i.natAbs < fuel →
      (0 ≤ i → string_of_i128_fuel fuel i ≠ [] ∧
        allDigits (string_of_i128_fuel fuel i) = true ∧
        parseDigits (string_of_i128_fuel fuel i) = i.natAbs) ∧
      (i < 0 → ∃ t, string_of_i128_fuel fuel i = '-' :: t ∧ t ≠ [] ∧
        allDigits t = true ∧ parseDigits t = i.natAbs ∧
        1 ≤ charVal t.headI) := by
  intro fuel
  induction fuel with
  | zero => intro i h; omega
  | succ fuel ih =>
    intro i hfuel
    by_cases hr : INT64_MIN ≤ i ∧ i ≤ INT64_MAX
    · constructor
      · intro h0
        have hnotneg : ¬ i < 0 := by omega
        have htn : i.toNat = i.natAbs := by omega
        simp only [string_of_i128_fuel, if_pos hr, int64_to_string,
          if_neg hnotneg, htn]
        obtain ⟨a, b, c, _, _⟩ := toDecimal_spec i.natAbs
        exact ⟨a, b, c⟩
      · intro hneg
        simp only [string_of_i128_fuel, if_pos hr, int64_to_string,
          if_pos hneg]
        obtain ⟨hne, hdig, hval, hhead, _⟩ := toDecimal_spec i.natAbs
        have habs1 : 1 ≤ i.natAbs := by omega
        exact ⟨toDecimal i.natAbs, rfl, hne, hdig, hval, hhead habs1⟩
    · -- |i| > INT64_MAX ≥ 10^18, so the recursive split is taken
      have habs : 9223372036854775808 ≤ i.natAbs := by
        unfold INT64_MIN INT64_MAX at hr
        omega
      have hPn : P10_INT64 = ((1000000000000000000 : Nat) : Int) := rfl
      have hdivAbs : (i.tdiv P10_INT64).natAbs
          = i.natAbs / 1000000000000000000 := by
        rw [hPn, natAbs_tdiv_nat]
      have hmodAbs : (i.tmod P10_INT64).natAbs
          = i.natAbs % 1000000000000000000 := by
        rw [hPn, natAbs_tmod_nat]
      have hdecomp : (i.tdiv P10_INT64).natAbs * 1000000000000000000
          + (i.tmod P10_INT64).natAbs = i.natAbs := by
        rw [hPn, natAbs_tdiv_tmod_decomp]
      have hhi9 : 9 ≤ (i.tdiv P10_INT64).natAbs := by
        rw [hdivAbs]
        omega
      have hhilt : (i.tdiv P10_INT64).natAbs < i.natAbs := by
        rw [hdivAbs]
        exact Nat.div_lt_self (by omega) (by norm_num)
      have hlo : (i.tmod P10_INT64).natAbs < 10 ^ E10_INT64 := by
        rw [hmodAbs]
        have : i.natAbs % 1000000000000000000 < 1000000000000000000 :=
          Nat.mod_lt _ (by norm_num)
        calc i.natAbs % 1000000000000000000 < 1000000000000000000 := this
        _ = 10 ^ E10_INT64 := by norm_num [E10_INT64]
      obtain ⟨hclen, hcdig, hcval⟩ :=
        chunk_spec (v := (i.tmod P10_INT64).natAbs) (w := E10_INT64)
          (by norm_num [E10_INT64]) hlo
      have hih := ih (i.tdiv P10_INT64) (by omega)
      constructor
      · intro h0
        have hhi0 : 0 ≤ i.tdiv P10_INT64 := by
          rw [hPn]
          exact Int.tdiv_nonneg h0 (by positivity)
        obtain ⟨hne, hdig, hval⟩ := hih.1 hhi0
        simp only [string_of_i128_fuel, if_neg hr]
        refine ⟨by simp [hne], ?_, ?_⟩
        · simp only [allDigits, List.all_append, Bool.and_eq_true] at hdig hcdig ⊢
          exact ⟨hdig, hcdig⟩
        · rw [parseDigits_append, hclen, hcval, hval]
          rw [show (10 : Nat) ^ E10_INT64 = 1000000000000000000 by
            norm_num [E10_INT64]]
          exact hdecomp
      · intro hneg
        have hhineg : i.tdiv P10_INT64 < 0 := by
          have h1 : i.tdiv P10_INT64 ≤ 0 := by
            rw [hPn]
            exact tdiv_nonpos_nat i _ (by omega)
          omega
        obtain ⟨thi, hshi, htne, htdig, htval, hthead⟩ := hih.2 hhineg
        simp only [string_of_i128_fuel, if_neg hr]
        rw [hshi]
        refine ⟨thi ++ (List.replicate
            (E10_INT64 - (toDecimal (i.tmod P10_INT64).natAbs).length) '0'
          ++ toDecimal (i.tmod P10_INT64).natAbs), rfl, by simp [htne], ?_, ?_, ?_⟩
        · simp only [allDigits, List.all_append, Bool.and_eq_true] at htdig hcdig ⊢
          exact ⟨htdig, hcdig⟩
        · rw [parseDigits_append, hclen, hcval, htval]
          rw [show (10 : Nat) ^ E10_INT64 = 1000000000000000000 by
            norm_num [E10_INT64]]
          exact hdecomp
        · rw [headI_append htne]
          exact hthead

theorem string_of_i128_spec (i : Int) :
    (0 ≤ i → string_of_i128 i ≠ [] ∧
      allDigits (string_of_i128 i) = true ∧
      parseDigits (string_of_i128 i) = i.natAbs) ∧
    (i < 0 → ∃ t, string_of_i128 i = '-' :: t ∧ t ≠ [] ∧
      allDigits t = true ∧ parseDigits t = i.natAbs ∧
      1 ≤ charVal t.headI) :=
  string_of_i128_fuel_spec (i.natAbs + 1) i (by omega)

/-! ### `i128_of_string` (runtime.h:96-108) -/

/-- `i128_of_string`, fuel-indexed (any `fuel ≥ s.length` suffices).
The failed `assert(len > 0)` is `.error .ParseError`; `max_len` admits
one extra character when the string starts with a sign character (the
source carries a FIXME about splitting just after a leading sign);
exception propagation is the `Except` monad's bind. As in the
formatter, `int128_t` intermediates are exact (in-range inputs never
overflow). -/
def i128_of_string_fuel : Nat → List Char → Except CodecError Int
  | 0, _ => .error .ParseError
  | fuel+1, s =>
    if s.length = 0 then .error .ParseError
    else if s.length ≤ E10_INT64 + (if is_sign s.headI then 1 else 0) then
      stoll s
    else
      (i128_of_string_fuel fuel (s.take (s.length - E10_INT64))).bind fun hi =>
        (i128_of_string_fuel fuel
            ((s.drop (s.length - E10_INT64)).take E10_INT64)).bind fun lo =>
          .ok (if 0 ≤ hi then hi * P10_INT64 + lo else hi * P10_INT64 - lo)

def i128_of_string (s : List Char) : Except CodecError Int :=
  i128_of_string_fuel s.length s

theorem stoll_digits_of_ne {s : List Char} (hne : s ≠ [])
    (hdig : allDigits s = true)
    (hle : (parseDigits s : Int) ≤ INT64_MAX) :
    stoll s = .ok (parseDigits s) := by
  cases s with
  | nil => exact absurd rfl hne
  | cons c t => exact stoll_digits hdig hle

theorem stoll_neg_of_ne {t : List Char} (hne : t ≠ [])
    (hdig : allDigits t = true)
    (hle : (parseDigits t : Int) ≤ INT64_MAX) :
    stoll ('-' :: t) = .ok (-(parseDigits t : Int)) := by
  cases t with
  | nil => exact absurd rfl hne
  | cons c t' => exact stoll_neg_digits hdig hle

theorem parseDigits_pos_of_head {s : List Char} (hne : s ≠ [])
    (hh : 1 ≤ charVal s.headI) : 1 ≤ parseDigits s := by
  cases s with
  | nil => exact absurd rfl hne
  | cons c t =>
    simp only [List.headI] at hh
    exact parseDigits_pos hh

theorem headI_mem_of_ne {s : List Char} (h : s ≠ []) : s.headI ∈ s := by
  cases s with
  | nil => exact absurd rfl h
  | cons c t => simp

theorem headI_take {t : List Char} {k : Nat} (h : t ≠ []) (hk : 1 ≤ k) :
    (t.take k).headI = t.headI := by
  cases t with
  | nil => exact absurd rfl h
  | cons c r =>
    obtain ⟨j, rfl⟩ : ∃ j, k = j + 1 := ⟨k - 1, by omega⟩
    simp

theorem pow18_eq : (10 : Nat) ^ E10_INT64 = 1000000000000000000 := by
  norm_num [E10_INT64]

theorem i128_of_string_fuel_spec :
    ∀ fuel s, s.length ≤ fuel →
      (s ≠ [] → allDigits s = true →
        i128_of_string_fuel fuel s = .ok ((parseDigits s : Nat) : Int)) ∧
      (∀ t, s = '-' :: t → t ≠ [] → allDigits t = true →
        1 ≤ charVal t.headI →
        i128_of_string_fuel fuel s = .ok (-((parseDigits t : Nat) : Int))) := by
  intro fuel
  induction fuel with
  | zero =>
    intro s hlen
    have hs : s = [] := by
      cases s with
      | nil => rfl
      | cons c t => simp at hlen
    subst hs
    constructor
    · intro hne _
      exact absurd rfl hne
    · intro t ht
      simp at ht
  | succ fuel ih =>
    intro s hlen
    constructor
    · -- a nonempty all-digit string parses to its value
      intro hne hdig
      have hc : is_digit s.headI = true := by
        rw [allDigits_iff] at hdig
        exact hdig _ (headI_mem_of_ne hne)
      have hsign := is_sign_of_digit hc
      have hlen0 : ¬ (s.length = 0) := by
        simp only [List.length_eq_zero]
        exact hne
      by_cases hle : s.length ≤ E10_INT64
      · have hcond : s.length ≤ E10_INT64
            + (if is_sign s.headI then 1 else 0) := by
          simp only [hsign, Bool.false_eq_true, if_false]
          omega
        simp only [i128_of_string_fuel, if_neg hlen0, if_pos hcond]
        apply stoll_digits_of_ne hne hdig
        have hb : parseDigits s < 10 ^ E10_INT64 :=
          lt_of_lt_of_le (parseDigits_lt hdig)
            (Nat.pow_le_pow_right (by norm_num) hle)
        rw [pow18_eq] at hb
        unfold INT64_MAX
        omega
      · have hcond : ¬ (s.length ≤ E10_INT64
            + (if is_sign s.headI then 1 else 0)) := by
          simp only [hsign, Bool.false_eq_true, if_false]
          omega
        push_neg at hle
        simp only [i128_of_string_fuel, if_neg hlen0, if_neg hcond]
        have h18 : E10_INT64 = 18 := rfl
        set hl := s.length - E10_INT64 with hhl
        have htlen : (s.take hl).length = hl := by
          rw [List.length_take]
          omega
        have hdlen : (s.drop hl).length = E10_INT64 := by
          rw [List.length_drop]
          omega
        have hdtake : (s.drop hl).take E10_INT64 = s.drop hl := by
          apply List.take_of_length_le
          omega
        have htne : s.take hl ≠ [] := by
          intro hcon
          have := congrArg List.length hcon
          rw [htlen] at this
          simp at this
          omega
        have hdne : s.drop hl ≠ [] := by
          intro hcon
          have := congrArg List.length hcon
          rw [hdlen, h18] at this
          simp at this
        have hparse : parseDigits s
            = parseDigits (s.take hl) * 10 ^ E10_INT64
              + parseDigits (s.drop hl) := by
          conv_lhs => rw [← List.take_append_drop hl s]
          rw [parseDigits_append, hdlen]
        have hih1 := (ih (s.take hl) (by omega)).1 htne (allDigits_take hdig hl)
        have hih2 := (ih (s.drop hl) (by omega)).1 hdne (allDigits_drop hdig hl)
        rw [hih1, except_ok_bind, hdtake, hih2, except_ok_bind]
        rw [if_pos (Int.ofNat_nonneg _)]
        congr 1
        rw [hparse, pow18_eq]
        simp only [P10_INT64]
        push_cast
        ring
    · -- a '-' followed by digits whose leading digit is nonzero
      intro t hst htne htdig hthead
      subst hst
      have hlen0 : ¬ (('-' :: t).length = 0) := by simp
      have hsg : is_sign '-' = true := by decide
      by_cases hle : t.length ≤ E10_INT64
      · have hcond : ('-' :: t).length ≤ E10_INT64
            + (if is_sign ('-' :: t).headI then 1 else 0) := by
          simp only [List.headI, hsg, if_true, List.length_cons]
          omega
        simp only [i128_of_string_fuel, if_neg hlen0, if_pos hcond]
        apply stoll_neg_of_ne htne htdig
        have hb : parseDigits t < 10 ^ E10_INT64 :=
          lt_of_lt_of_le (parseDigits_lt htdig)
            (Nat.pow_le_pow_right (by norm_num) hle)
        rw [pow18_eq] at hb
        unfold INT64_MAX
        omega
      · have hcond : ¬ (('-' :: t).length ≤ E10_INT64
            + (if is_sign ('-' :: t).headI then 1 else 0)) := by
          simp only [List.headI, hsg, if_true, List.length_cons]
          omega
        push_neg at hle
        simp only [i128_of_string_fuel, if_neg hlen0, if_neg hcond]
        have h18 : E10_INT64 = 18 := rfl
        have hl1 : ('-' :: t).length - E10_INT64 = (t.length - E10_INT64) + 1 := by
          simp only [List.length_cons]
          omega
        set k := t.length - E10_INT64 with hk
        have hk1 : 1 ≤ k := by omega
        have htake : ('-' :: t).take (('-' :: t).length - E10_INT64)
            = '-' :: t.take k := by
          rw [hl1]
          simp
        have hdrop : ('-' :: t).drop (('-' :: t).length - E10_INT64)
            = t.drop k := by
          rw [hl1]
          simp
        have htklen : (t.take k).length = k := by
          rw [List.length_take]
          omega
        have htkne : t.take k ≠ [] := by
          intro hcon
          have := congrArg List.length hcon
          rw [htklen] at this
          simp at this
          omega
        have hdplen : (t.drop k).length = E10_INT64 := by
          rw [List.length_drop]
          omega
        have hdpne : t.drop k ≠ [] := by
          intro hcon
          have := congrArg List.length hcon
          rw [hdplen, h18] at this
          simp at this
        have hdptake : (t.drop k).take E10_INT64 = t.drop k := by
          apply List.take_of_length_le
          omega
        have hih1 := (ih ('-' :: t.take k) (by
            simp only [List.length_cons, htklen]
            omega)).2 (t.take k) rfl htkne (allDigits_take htdig k)
          (by rw [headI_take htne hk1]; exact hthead)
        have hih2 := (ih (t.drop k) (by rw [hdplen]; omega)).1 hdpne
          (allDigits_drop htdig k)
        rw [htake, hih1, except_ok_bind, hdrop, hdptake, hih2, except_ok_bind]
        have hpos : 1 ≤ parseDigits (t.take k) :=
          parseDigits_pos_of_head htkne (by rw [headI_take htne hk1]; exact hthead)
        rw [if_neg (by omega : ¬ (0 : Int) ≤ -(parseDigits (t.take k) : Nat))]
        congr 1
        have hparse : parseDigits t
            = parseDigits (t.take k) * 10 ^ E10_INT64
              + parseDigits (t.drop k) := by
          conv_lhs => rw [← List.take_append_drop k t]
          rw [parseDigits_append, hdplen]
        rw [hparse, pow18_eq]
        simp only [P10_INT64]
        push_cast
        ring

/-- C2: signed round-trip through the decimal codec (which holds in
spite of the source's FIXME about splitting just after a leading sign:
the `max_len` threshold keeps every sign-carrying high part at least
two characters long), plus the concrete renderings named by the spec. -/
theorem c2_i128_roundtrip :
    (∀ i : Int, -(2 ^ 127) ≤ i → i ≤ 2 ^ 127 - 1 →
      i128_of_string (string_of_i128 i) = .ok i) ∧
      string_of_i128 (-1) = "-1".data ∧
      string_of_i128 (-(10 ^ 19)) = "-10000000000000000000".data := by
  refine ⟨?_, by decide, by decide⟩
  intro i _ _
  obtain ⟨hpos, hneg⟩ := string_of_i128_spec i
  rcases le_or_lt 0 i with h0 | h0
  · obtain ⟨hne, hdig, hval⟩ := hpos h0
    unfold i128_of_string
    rw [(i128_of_string_fuel_spec _ _ le_rfl).1 hne hdig, hval]
    congr 1
    omega
  · obtain ⟨t, hs, htne, htdig, htval, hthead⟩ := hneg h0
    unfold i128_of_string
    rw [(i128_of_string_fuel_spec (string_of_i128 i).length _ le_rfl).2 t hs
      htne htdig hthead, htval]
    congr 1
    omega

/-- C2 witness: the round-trip theorem applied at both extremes of the
`int128_t` range. -/
theorem c2_i128_roundtrip_witness :
    i128_of_string (string_of_i128 (-(2 ^ 127))) = .ok (-(2 ^ 127)) ∧
      i128_of_string (string_of_i128 (2 ^ 127 - 1)) = .ok (2 ^ 127 - 1) :=
  ⟨c2_i128_roundtrip.1 (-(2 ^ 127)) (by norm_num) (by norm_num),
   c2_i128_roundtrip.1 (2 ^ 127 - 1) (by norm_num) (by norm_num)⟩

/-! ### C3: the zero-padded chunk structure of the formatters -/

theorem string_of_u128_fuel_irrel :
    ∀ f1 f2 u, u < f1 → u < f2 →
      string_of_u128_fuel f1 u = string_of_u128_fuel f2 u := by
  intro f1
  induction f1 with
  | zero => intro f2 u h1 h2; omega
  | succ f1 ih =>
    intro f2 u h1 h2
    cases f2 with
    | zero => omega
    | succ f2 =>
      by_cases hle : u ≤ UINT64_MAX
      · simp only [string_of_u128_fuel, if_pos hle]
      · have hrec : u / P10_UINT64 < u :=
          Nat.div_lt_self (by omega) (by norm_num [P10_UINT64])
        simp only [string_of_u128_fuel, if_neg hle]
        rw [ih f2 (u / P10_UINT64) (by omega) (by omega)]

theorem string_of_i128_fuel_irrel :
    ∀ f1 f2 (i : Int), i.natAbs < f1 → i.natAbs < f2 →
      string_of_i128_fuel f1 i = string_of_i128_fuel f2 i := by
  intro f1
  induction f1 with
  | zero => intro f2 i h1 h2; omega
  | succ f1 ih =>
    intro f2 i h1 h2
    cases f2 with
    | zero => omega
    | succ f2 =>
      by_cases hr : INT64_MIN ≤ i ∧ i ≤ INT64_MAX
      · simp only [string_of_i128_fuel, if_pos hr]
      · have habs : 9223372036854775808 ≤ i.natAbs := by
          unfold INT64_MIN INT64_MAX at hr
          omega
        have hrec : (i.tdiv P10_INT64).natAbs < i.natAbs := by
          rw [P10_INT64_eq, natAbs_tdiv_nat]
          exact Nat.div_lt_self (by omega) (by norm_num)
        simp only [string_of_i128_fuel, if_neg hr]
        rw [ih f2 (i.tdiv P10_INT64) (by omega) (by omega)]

/-- C3: in the recursive branch of each formatter (taken exactly when
the value lies outside the directly-rendered 64-bit range, so the high
part is nonzero), the low chunk is emitted as exactly 19 (unsigned)
resp. 18 (signed) digits, left-padded with zeros, denoting `u % 10^19`
resp. `|i % 10^18|`; and concretely `10^19 + 5` renders as
`"10000000000000000005"`, not `"100000000000000005"`. -/
theorem c3_chunk_padding :
    (∀ u : Nat, UINT64_MAX < u → ∃ chunk,
      string_of_u128 u = string_of_u128 (u / P10_UINT64) ++ chunk ∧
      chunk.length = 19 ∧ allDigits chunk = true ∧
      parseDigits chunk = u % P10_UINT64) ∧
    (∀ i : Int, ¬ (INT64_MIN ≤ i ∧ i ≤ INT64_MAX) → ∃ chunk,
      string_of_i128 i = string_of_i128 (i.tdiv P10_INT64) ++ chunk ∧
      chunk.length = 18 ∧ allDigits chunk = true ∧
      parseDigits chunk = (i.tmod P10_INT64).natAbs) ∧
    string_of_u128 (10 ^ 19 + 5) = "10000000000000000005".data ∧
    string_of_u128 (10 ^ 19 + 5) ≠ "100000000000000005".data := by
  refine ⟨?_, ?_, by decide, by decide⟩
  · intro u hu
    have hule : ¬ u ≤ UINT64_MAX := by omega
    have hupos : 0 < u := by
      unfold UINT64_MAX at hu
      omega
    have hrec : u / P10_UINT64 < u :=
      Nat.div_lt_self hupos (by norm_num [P10_UINT64])
    have hmod : u % P10_UINT64 < 10 ^ E10_UINT64 := by
      rw [show (10 : Nat) ^ E10_UINT64 = P10_UINT64 by
        norm_num [P10_UINT64, E10_UINT64]]
      exact Nat.mod_lt u (by norm_num [P10_UINT64])
    obtain ⟨hclen, hcdig, hcval⟩ :=
      chunk_spec (v := u % P10_UINT64) (w := E10_UINT64)
        (by norm_num [E10_UINT64]) hmod
    refine ⟨List.replicate (E10_UINT64 - (toDecimal (u % P10_UINT64)).length) '0'
        ++ toDecimal (u % P10_UINT64), ?_, ?_, hcdig, hcval⟩
    · have e1 : string_of_u128_fuel (u + 1) u
          = string_of_u128_fuel u (u / P10_UINT64)
            ++ (List.replicate
                  (E10_UINT64 - (toDecimal (u % P10_UINT64)).length) '0'
                ++ toDecimal (u % P10_UINT64)) := by
        simp only [string_of_u128_fuel, if_neg hule]
      unfold string_of_u128
      rw [e1, string_of_u128_fuel_irrel u (u / P10_UINT64 + 1)
        (u / P10_UINT64) hrec (by omega)]
    · rw [hclen]
      rfl
  · intro i hr
    have habs : 9223372036854775808 ≤ i.natAbs := by
      unfold INT64_MIN INT64_MAX at hr
      omega
    have hrec : (i.tdiv P10_INT64).natAbs < i.natAbs := by
      rw [P10_INT64_eq, natAbs_tdiv_nat]
      exact Nat.div_lt_self (by omega) (by norm_num)
    have hmod : (i.tmod P10_INT64).natAbs < 10 ^ E10_INT64 := by
      rw [P10_INT64_eq, natAbs_tmod_nat, pow18_eq]
      exact Nat.mod_lt _ (by norm_num)
    obtain ⟨hclen, hcdig, hcval⟩ :=
      chunk_spec (v := (i.tmod P10_INT64).natAbs) (w := E10_INT64)
        (by norm_num [E10_INT64]) hmod
    refine ⟨List.replicate
        (E10_INT64 - (toDecimal (i.tmod P10_INT64).natAbs).length) '0'
        ++ toDecimal (i.tmod P10_INT64).natAbs, ?_, ?_, hcdig, hcval⟩
    · have e1 : string_of_i128_fuel (i.natAbs + 1) i
          = string_of_i128_fuel i.natAbs (i.tdiv P10_INT64)
            ++ (List.replicate
                  (E10_INT64 - (toDecimal (i.tmod P10_INT64).natAbs).length) '0'
                ++ toDecimal (i.tmod P10_INT64).natAbs) := by
        simp only [string_of_i128_fuel, if_neg hr]
      unfold string_of_i128
      rw [e1, string_of_i128_fuel_irrel i.natAbs ((i.tdiv P10_INT64).natAbs + 1)
        (i.tdiv P10_INT64) hrec (by omega)]
    · rw [hclen]
      rfl

/-- C3 witness: the chunk-structure theorem applied at `u = 2 ^ 64` and
`i = 2 ^ 127` (both outside the directly-rendered 64-bit range). -/
theorem c3_chunk_padding_witness :
    (∃ chunk, string_of_u128 (2 ^ 64)
        = string_of_u128 (2 ^ 64 / P10_UINT64) ++ chunk ∧
      chunk.length = 19 ∧ allDigits chunk = true ∧
      parseDigits chunk = 2 ^ 64 % P10_UINT64) ∧
    (∃ chunk, string_of_i128 (2 ^ 127)
        = string_of_i128 ((2 ^ 127 : Int).tdiv P10_INT64) ++ chunk ∧
      chunk.length = 18 ∧ allDigits chunk = true ∧
      parseDigits chunk = ((2 ^ 127 : Int).tmod P10_INT64).natAbs) :=
  ⟨c3_chunk_padding.1 (2 ^ 64) (by norm_num [UINT64_MAX]),
   c3_chunk_padding.2.1 (2 ^ 127)
     (by norm_num [INT64_MIN, INT64_MAX])⟩

instance {ε α : Type} [DecidableEq ε] [DecidableEq α] :
    DecidableEq (Except ε α) := fun x y =>
  match x, y with
  | .error a, .error b => decidable_of_iff (a = b) (by simp)
  | .error _, .ok _ => isFalse (by simp)
  | .ok _, .error _ => isFalse (by simp)
  | .ok a, .ok b => decidable_of_iff (a = b) (by simp)

/-! ### `i128_from_chars` / `u128_from_chars` (runtime.h:110-130) -/

/-- `i128_from_chars` (runtime.h:110-119): the character range
`[start, stop)` is `s`; the failed `assert(stop > start)` and
`assert(count > 0)` are `.error .ParseError`; after skipping one
optional sign character the maximal digit run is counted, the prefix of
`count` characters is parsed, and the consumed count is returned with
the value. -/
def i128_from_chars (s : List Char) : Except CodecError (Nat × Int) :=
  if s.isEmpty then .error .ParseError
  else
    let c0 := if is_sign s.headI then 1 else 0
    let count := c0 + ((s.drop c0).takeWhile is_digit).length
    if count = 0 then .error .ParseError
    else
      (i128_of_string (s.take count)).map fun v => (count, v)

/-- `u128_from_chars` (runtime.h:121-130). The source initializes
`count` from `is_sign(*start)` but the for-loop immediately
re-initializes `count` to 0, so the sign check is dead and a leading
sign is never consumed; the `(uint128_t)` cast of the signed parse
result wraps modulo `2 ^ 128`. -/
def u128_from_chars (s : List Char) : Except CodecError (Nat × Nat) :=
  if s.isEmpty then .error .ParseError
  else
    let count := (s.takeWhile is_digit).length
    if count = 0 then .error .ParseError
    else
      (i128_of_string (s.take count)).map fun v =>
        (count, (v.emod (2 ^ 128)).toNat)

/-- C4: the spec's concrete example works (`"123abc"` gives consumed=3,
value=123) and the signed consumer handles a leading sign (`"+1"` gives
consumed=2, value=1; `"-12"` gives consumed=3, value=-12); but the
unsigned consumer fails its `count > 0` assertion on `"+1"` because the
for-loop re-initializes `count` to 0 and `'+'` is not a digit, so the
sign is never consumed — contradicting the spec's claim that both
consumers accept an optional sign. -/
theorem c4_from_chars_consume :
    i128_from_chars "123abc".data = .ok (3, 123) ∧
    i128_from_chars "+1".data = .ok (2, 1) ∧
    i128_from_chars "-12".data = .ok (3, -12) ∧
    u128_from_chars "123abc".data = .ok (3, 123) ∧
    u128_from_chars "+1".data = .error .ParseError := by
  exact ⟨by decide, by decide, by decide, by decide, by decide⟩

/-- C5: on empty input and on a lone sign character, every parse and
consume operation of the codec yields ParseError — the source's failed
assertions and the `std::invalid_argument` thrown by `stoll`/`stoull`,
embedded as recoverable error results. -/
theorem c5_empty_or_sign_only_is_parse_error :
    (i128_of_string [] = .error .ParseError ∧
     u128_of_string [] = .error .ParseError ∧
     i128_from_chars [] = .error .ParseError ∧
     u128_from_chars [] = .error .ParseError) ∧
    (∀ c : Char, is_sign c = true →
      i128_of_string [c] = .error .ParseError ∧
      u128_of_string [c] = .error .ParseError ∧
      i128_from_chars [c] = .error .ParseError ∧
      u128_from_chars [c] = .error .ParseError) := by
  refine ⟨⟨by decide, by decide, by decide, by decide⟩, ?_⟩
  intro c hc
  have hcc : c = '-' ∨ c = '+' := by
    simpa [is_sign] using hc
  rcases hcc with rfl | rfl
  · exact ⟨by decide, by decide, by decide, by decide⟩
  · exact ⟨by decide, by decide, by decide, by decide⟩

/-- C5 witness: the sign-only clause applied at `'-'`. -/
theorem c5_empty_or_sign_only_witness :
    i128_of_string ['-'] = .error .ParseError ∧
      u128_of_string ['-'] = .error .ParseError ∧
      i128_from_chars ['-'] = .error .ParseError ∧
      u128_from_chars ['-'] = .error .ParseError :=
  c5_empty_or_sign_only_is_parse_error.2 '-' (by decide)

/-! ### `Bytes` (Bytes.h) -/

/-- `struct Bytes` (Bytes.h:8-36): a view of `size` bytes starting at
`offset` within shared `buffer` storage. Bytes are modelled as `Char`
because every operation the claims exercise moves them through
`std::string`. -/
structure Bytes where
  buffer : List Char
  size : Nat
  offset : Nat
deriving DecidableEq, Repr

/-- The view constructor `Bytes(shared_ptr<Byte[]>, size_t size_,
size_t offset_)` (Bytes.h:16-20): stores the three fields with no
bounds check (the original trusts the caller). -/
def Bytes.view (buffer : List Char) (size offset : Nat) : Bytes :=
  ⟨buffer, size, offset⟩

/-- The copying constructor `Bytes(std::string)` (Bytes.h:22-28):
fresh storage holding a copy of `s`, `offset = 0`, `size = s.length`. -/
def Bytes.ofString (s : List Char) : Bytes := ⟨s, s.length, 0⟩

/-- `Bytes::toString` (Bytes.h:32-35): reads `size` characters starting
at `buffer + offset` (defined behaviour only under the spec invariant
`offset + size ≤ capacity(storage)`). -/
def Bytes.toString (b : Bytes) : List Char :=
  (b.buffer.drop b.offset).take b.size

/-- Modelled from the spec: the checked view constructor (`fromView`,
§4.1) does not exist in the source — the source constructor at
Bytes.h:16-20 trusts the caller. Per §4.1/§7 it must "validate this and
fail with an OutOfRange error rather than allow undefined access", the
validity condition being `offset + size ≤ capacity(storage)` (§3). -/
def fromView (storage : List Char) (offset size : Nat) :
    Except CodecError Bytes :=
  if storage.length < offset + size then .error .OutOfRange
  else .ok (Bytes.view storage size offset)

/-- C6: every view request exceeding the storage capacity fails with
OutOfRange; concretely offset=3, size=5 over the 5-byte storage
`"hello"` fails. -/
theorem c6_view_out_of_range :
    (∀ (storage : List Char) (offset size : Nat),
      storage.length < offset + size →
      fromView storage offset size = .error .OutOfRange) ∧
    fromView "hello".data 3 5 = .error .OutOfRange := by
  refine ⟨?_, by decide⟩
  intro storage offset size h
  unfold fromView
  rw [if_pos h]

/-- C6 witness: the OutOfRange theorem applied at the spec's concrete
boundary example. -/
theorem c6_view_out_of_range_witness :
    fromView ['h', 'e', 'l', 'l', 'o'] 3 5 = .error .OutOfRange :=
  c6_view_out_of_range.1 ['h', 'e', 'l', 'l', 'o'] 3 5 (by decide)

/-- C7: `toString` (materialize) returns exactly the logical slice
`[offset, offset+size)`: under the view invariant it has length `size`
and its `i`-th character is character `offset + i` of the storage;
`ofString` (fromOwned) yields offset 0 and size = input length and
materializes back to its input; the offset=2 size=3 view over
`"hello"` materializes to `"llo"`. -/
theorem c7_materialize_slice :
    (∀ s : List Char, (Bytes.ofString s).offset = 0 ∧
      (Bytes.ofString s).size = s.length ∧
      (Bytes.ofString s).toString = s) ∧
    (∀ (storage : List Char) (size offset : Nat),
      offset + size ≤ storage.length →
      (Bytes.view storage size offset).toString.length = size ∧
      ∀ i, i < size →
        ((Bytes.view storage size offset).toString)[i]?
          = storage[offset + i]?) ∧
    (Bytes.view "hello".data 3 2).toString = "llo".data := by
  refine ⟨?_, ?_, by decide⟩
  · intro s
    refine ⟨rfl, rfl, ?_⟩
    simp [Bytes.toString, Bytes.ofString]
  · intro storage size offset h
    constructor
    · simp only [Bytes.toString, Bytes.view, List.length_take,
        List.length_drop]
      omega
    · intro i hi
      simp only [Bytes.toString, Bytes.view]
      rw [List.getElem?_take_of_lt hi, List.getElem?_drop]

/-- C7 witness: the slice theorem applied at the offset=2 size=3 view
over `"hello"`. -/
theorem c7_materialize_slice_witness :
    (Bytes.view "hello".data 3 2).toString.length = 3 ∧
      ∀ i, i < 3 →
        ((Bytes.view "hello".data 3 2).toString)[i]?
          = ("hello".data)[2 + i]? :=
  c7_materialize_slice.2.1 "hello".data 3 2 (by decide)

/-! ### `SimpleSet` (SimpleSet.h) and `SlidingWindow` (SlidingWindow.h) -/

/-- `SimpleSet<T>` (SimpleSet.h:6-31): a `std::list` kept from oldest
to youngest. (The `iter` traversal takes a side-effecting callback and
is not needed by the claims.) -/
structure SimpleSet (T : Type) where
  l : List T

/-- A default-constructed `SimpleSet()`. -/
def SimpleSet.empty {T : Type} : SimpleSet T := ⟨[]⟩

/-- `SimpleSet::insert` (SimpleSet.h:15-17): `l.push_back(x)`. -/
def SimpleSet.insert {T : Type} (s : SimpleSet T) (x : T) : SimpleSet T :=
  ⟨s.l ++ [x]⟩

/-- `SimpleSet::lastUpdate` (SimpleSet.h:19-22): `(l.back(), {})`.
`back()` on an empty list is UB, so the total embedding returns `none`
for the empty set. -/
def SimpleSet.lastUpdate {T : Type} (s : SimpleSet T) : Option (T × List T) :=
  s.l.getLast?.map fun x => (x, [])

/-- `SimpleSet::size` (SimpleSet.h:24-26): `l.size()` (a `size_t`)
narrowed to the `uint32_t` return type, i.e. taken modulo `2 ^ 32`. -/
def SimpleSet.size {T : Type} (s : SimpleSet T) : Nat := s.l.length % 2 ^ 32

/-- A sequence of `insert` calls, oldest first. -/
def SimpleSet.insertAll {T : Type} (s : SimpleSet T) (xs : List T) :
    SimpleSet T :=
  xs.foldl SimpleSet.insert s

/-- `SlidingWindow<T>` (SlidingWindow.h:6-30): structurally identical
to `SimpleSet` — a `std::list` kept from oldest to youngest. (Its
begin/end iterator exposure is not needed by the claims.) -/
structure SlidingWindow (T : Type) where
  l : List T

/-- A default-constructed `SlidingWindow()`. -/
def SlidingWindow.empty {T : Type} : SlidingWindow T := ⟨[]⟩

/-- `SlidingWindow::insert` (SlidingWindow.h:15-17): `l.push_back(x)`;
nothing is ever evicted. -/
def SlidingWindow.insert {T : Type} (s : SlidingWindow T) (x : T) :
    SlidingWindow T :=
  ⟨s.l ++ [x]⟩

/-- `SlidingWindow::lastUpdate` (SlidingWindow.h:19-22):
`(l.back(), {})`, with `none` for the empty window in the total
embedding. -/
def SlidingWindow.lastUpdate {T : Type} (s : SlidingWindow T) :
    Option (T × List T) :=
  s.l.getLast?.map fun x => (x, [])

/-- `SlidingWindow::size` (SlidingWindow.h:24-26): `l.size()` narrowed
to `uint32_t`. -/
def SlidingWindow.size {T : Type} (s : SlidingWindow T) : Nat :=
  s.l.length % 2 ^ 32

/-- A sequence of `insert` calls, oldest first. -/
def SlidingWindow.insertAll {T : Type} (s : SlidingWindow T) (xs : List T) :
    SlidingWindow T :=
  xs.foldl SlidingWindow.insert s

theorem simpleSet_insertAll_l {T : Type} :
    ∀ (xs : List T) (s : SimpleSet T), (s.insertAll xs).l = s.l ++ xs := by
  intro xs
  induction xs with
  | nil => intro s; simp [SimpleSet.insertAll]
  | cons x r ih =>
    intro s
    show (SimpleSet.insertAll (s.insert x) r).l = _
    rw [ih (s.insert x)]
    simp [SimpleSet.insert]

theorem slidingWindow_insertAll_l {T : Type} :
    ∀ (xs : List T) (s : SlidingWindow T), (s.insertAll xs).l = s.l ++ xs := by
  intro xs
  induction xs with
  | nil => intro s; simp [SlidingWindow.insertAll]
  | cons x r ih =>
    intro s
    show (SlidingWindow.insertAll (s.insert x) r).l = _
    rw [ih (s.insert x)]
    simp [SlidingWindow.insert]

/-- C8: starting from empty, every insert sequence leaves the
Accumulator (`SimpleSet`) and the Window (`SlidingWindow`) with equal
`size()` and equal `mostRecentPlusEvicted()` (`lastUpdate`) results,
and the Window never reports evicted elements. -/
theorem c8_window_accumulator_extensionally_equal :
    ∀ (T : Type) (xs : List T),
      (SimpleSet.insertAll SimpleSet.empty xs).size
          = (SlidingWindow.insertAll SlidingWindow.empty xs).size ∧
      (SimpleSet.insertAll SimpleSet.empty xs).lastUpdate
          = (SlidingWindow.insertAll SlidingWindow.empty xs).lastUpdate ∧
      ∀ x evicted,
        (SlidingWindow.insertAll SlidingWindow.empty xs).lastUpdate
            = some (x, evicted) → evicted = [] := by
  intro T xs
  have h1 : (SimpleSet.insertAll SimpleSet.empty xs).l = xs := by
    rw [simpleSet_insertAll_l]
    rfl
  have h2 : (SlidingWindow.insertAll SlidingWindow.empty xs).l = xs := by
    rw [slidingWindow_insertAll_l]
    rfl
  refine ⟨?_, ?_, ?_⟩
  · unfold SimpleSet.size SlidingWindow.size
    rw [h1, h2]
  · unfold SimpleSet.lastUpdate SlidingWindow.lastUpdate
    rw [h1, h2]
  · intro x evicted hsome
    unfold SlidingWindow.lastUpdate at hsome
    rw [h2] at hsome
    cases hlast : xs.getLast? with
    | none => rw [hlast] at hsome; simp at hsome
    | some y =>
      rw [hlast] at hsome
      simp at hsome
      exact hsome.2

/-- C8 witness: the equivalence applied to the concrete insert
sequence `[5, 7]` over `Nat`, including the evicted-is-empty clause at
its realized last update. -/
theorem c8_window_accumulator_witness :
    (SimpleSet.insertAll SimpleSet.empty [5, 7]).size
        = (SlidingWindow.insertAll SlidingWindow.empty [5, 7]).size ∧
      ([] : List Nat) = [] :=
  ⟨(c8_window_accumulator_extensionally_equal Nat [5, 7]).1,
   (c8_window_accumulator_extensionally_equal Nat [5, 7]).2.2 7 []
     (by decide)⟩

theorem simpleSet_size_insertAll {T : Type} (xs : List T) :
    (SimpleSet.insertAll SimpleSet.empty xs).size = xs.length % 2 ^ 32 := by
  unfold SimpleSet.size
  rw [simpleSet_insertAll_l]
  simp [SimpleSet.empty]

/-- C9 counterexample: `size()` narrows `l.size()` to `uint32_t`, so
after `2 ^ 32` inserts into a fresh Accumulator it returns 0, not the
element count `2 ^ 32` — the claim "size() returns n" fails at the
concrete nonempty sequence of `2 ^ 32` zeros. -/
theorem c9_counterexample_size_wraps :
    (SimpleSet.insertAll SimpleSet.empty
        (List.replicate (2 ^ 32) (0 : Nat))).size = 0 ∧
      List.replicate (2 ^ 32) (0 : Nat) ≠ [] ∧
      (2 ^ 32 : Nat) ≠ 0 := by
  refine ⟨?_, ?_, by norm_num⟩
  · rw [simpleSet_size_insertAll (List.replicate (2 ^ 32) (0 : Nat)),
      List.length_replicate, Nat.mod_self]
  · intro h
    have hlen := congrArg List.length h
    rw [List.length_replicate] at hlen
    exact absurd hlen (by norm_num)

/-- C9 (amended): for every nonempty sequence x1..xn inserted in order
into a fresh Accumulator or Window, `size()` returns `n % 2 ^ 32` —
hence `n` itself whenever `n < 2 ^ 32` — and `mostRecentPlusEvicted()`
returns the newest element with an empty evicted sequence (the
operations are pure, so repeated calls without intervening mutation
agree). -/
theorem c9_insert_size_lastUpdate :
    ∀ (T : Type) (xs : List T) (x : T),
      (SimpleSet.insertAll SimpleSet.empty (xs ++ [x])).size
          = (xs.length + 1) % 2 ^ 32 ∧
      (xs.length + 1 < 2 ^ 32 →
        (SimpleSet.insertAll SimpleSet.empty (xs ++ [x])).size
          = xs.length + 1) ∧
      (SimpleSet.insertAll SimpleSet.empty (xs ++ [x])).lastUpdate
          = some (x, []) ∧
      (SlidingWindow.insertAll SlidingWindow.empty (xs ++ [x])).size
          = (xs.length + 1) % 2 ^ 32 ∧
      (xs.length + 1 < 2 ^ 32 →
        (SlidingWindow.insertAll SlidingWindow.empty (xs ++ [x])).size
          = xs.length + 1) ∧
      (SlidingWindow.insertAll SlidingWindow.empty (xs ++ [x])).lastUpdate
          = some (x, []) := by
  intro T xs x
  have h1 : (SimpleSet.insertAll SimpleSet.empty (xs ++ [x])).l = xs ++ [x] := by
    rw [simpleSet_insertAll_l]
    rfl
  have h2 : (SlidingWindow.insertAll SlidingWindow.empty (xs ++ [x])).l
      = xs ++ [x] := by
    rw [slidingWindow_insertAll_l]
    rfl
  have hlen : (xs ++ [x]).length = xs.length + 1 := by simp
  refine ⟨?_, ?_, ?_, ?_, ?_, ?_⟩
  · unfold SimpleSet.size
    rw [h1, hlen]
  · intro hsmall
    unfold SimpleSet.size
    rw [h1, hlen, Nat.mod_eq_of_lt hsmall]
  · unfold SimpleSet.lastUpdate
    rw [h1, List.getLast?_concat]
    rfl
  · unfold SlidingWindow.size
    rw [h2, hlen]
  · intro hsmall
    unfold SlidingWindow.size
    rw [h2, hlen, Nat.mod_eq_of_lt hsmall]
  · unfold SlidingWindow.lastUpdate
    rw [h2, List.getLast?_concat]
    rfl

/-- C9 witness: the amended statement applied to the spec's concrete
three-element sequence x1=1, x2=2, x3=3. -/
theorem c9_insert_size_lastUpdate_witness :
    (SimpleSet.insertAll SimpleSet.empty ([1, 2] ++ [3])).size = 3 ∧
      (SimpleSet.insertAll SimpleSet.empty ([1, 2] ++ [3])).lastUpdate
        = some (3, []) ∧
      (SlidingWindow.insertAll SlidingWindow.empty ([1, 2] ++ [3])).size
        = 3 ∧
      (SlidingWindow.insertAll SlidingWindow.empty
          ([1, 2] ++ [3])).lastUpdate = some ((3 : Nat), []) :=
  ⟨(c9_insert_size_lastUpdate Nat [1, 2] 3).2.1 (by norm_num),
   (c9_insert_size_lastUpdate Nat [1, 2] 3).2.2.1,
   (c9_insert_size_lastUpdate Nat [1, 2] 3).2.2.2.2.1 (by norm_num),
   (c9_insert_size_lastUpdate Nat [1, 2] 3).2.2.2.2.2⟩

/-- C10: `lastUpdate` (`mostRecentPlusEvicted`) reads `l.back()`,
which is undefined on an empty collection — the total embedding
returns `none` there — and under the precondition `size() ≥ 1` the
collection is nonempty and the error branch is unreachable
(`lastUpdate` yields a value). -/
theorem c10_lastUpdate_needs_nonempty :
    ((SimpleSet.empty : SimpleSet Nat).lastUpdate = none ∧
     (SlidingWindow.empty : SlidingWindow Nat).lastUpdate = none) ∧
    (∀ (T : Type) (s : SimpleSet T), 1 ≤ s.size →
      s.lastUpdate.isSome = true) ∧
    (∀ (T : Type) (w : SlidingWindow T), 1 ≤ w.size →
      w.lastUpdate.isSome = true) := by
  refine ⟨⟨rfl, rfl⟩, ?_, ?_⟩
  · intro T s h
    have hne : s.l ≠ [] := by
      intro hcon
      unfold SimpleSet.size at h
      rw [hcon] at h
      simp at h
    unfold SimpleSet.lastUpdate
    rw [show (s.l.getLast?.map fun x => (x, ([] : List T)))
        = (fun x => (x, ([] : List T))) <$> s.l.getLast? from rfl]
    rw [Option.isSome_map]
    exact List.getLast?_isSome.mpr hne
  · intro T w h
    have hne : w.l ≠ [] := by
      intro hcon
      unfold SlidingWindow.size at h
      rw [hcon] at h
      simp at h
    unfold SlidingWindow.lastUpdate
    rw [show (w.l.getLast?.map fun x => (x, ([] : List T)))
        = (fun x => (x, ([] : List T))) <$> w.l.getLast? from rfl]
    rw [Option.isSome_map]
    exact List.getLast?_isSome.mpr hne

/-- C10 witness: the nonemptiness clauses applied to singleton
collections. -/
theorem c10_lastUpdate_needs_nonempty_witness :
    (SimpleSet.mk [4] : SimpleSet Nat).lastUpdate.isSome = true ∧
      (SlidingWindow.mk [4] : SlidingWindow Nat).lastUpdate.isSome = true :=
  ⟨c10_lastUpdate_needs_nonempty.2.1 Nat ⟨[4]⟩ (by decide),
   c10_lastUpdate_needs_nonempty.2.2 Nat ⟨[4]⟩ (by decide)⟩

end Dessser
